import Mathlib

/-!
Verification of the confy configuration library (`src/lib.rs`, TOML build —
the default feature selection).

The development shallowly embeds the two path-explicit operations
`store_path` and `load_path` over an explicit filesystem state: a finite
association list from paths to file contents (text).  Filesystem primitives
that can fail at the OS level (`create_dir_all`, `OpenOptions::open`,
`write_all`, `flush`, `rename`, `File::open`, reading a handle to a string)
are driven by an environment record that says which of them succeed, so a
single pure function covers every failure schedule of one call.  The serde
codec (`toml::to_string_pretty` / `toml::from_str`) is opaque in the source
— the value type is a type parameter — and is modelled by a `Codec` record
of an `encode` and a `decode` partial function.

The staging-path disambiguator `format!("{}_{:?}_{}", pid, tid, nanos)` is
modelled at the string level; decimal rendering of naturals is given by an
executable `decChars`/`natStr` pair so that candidate paths can be computed
and compared, and `Debug` of `std::thread::ThreadId` renders as
`ThreadId(n)` exactly as in the standard library.

Directories are not tracked: `create_dir_all` never creates, truncates or
removes a regular file, so on the file map it is the identity when it
succeeds; only its possible failure is modelled.
-/

deriving instance DecidableEq for Except

namespace Confy

/-- A filesystem path: whether it is absolute, plus its list of components.
`⟨true, []⟩` is the root `/`. -/
structure Path where
  absolute : Bool
  components : List String
deriving DecidableEq

/-- Rust `Path::parent`: `None` for a root or an empty path, otherwise the
path with its last component removed. -/
def Path.parent (p : Path) : Option Path :=
  match p.components with
  | [] => none
  | _ => some ⟨p.absolute, p.components.dropLast⟩

/-- Display rendering of a path, used by `Debug` formatting. -/
def Path.toStr (p : Path) : String :=
  if p.absolute then "/" ++ String.intercalate "/" p.components
  else String.intercalate "/" p.components

/-- Rust `Debug` formatting of a path: the displayed path in double quotes. -/
def Path.debugStr (p : Path) : String :=
  "\"" ++ p.toStr ++ "\""

/-- The stem of a file name: the part before the last dot, except that a
lone leading dot does not start an extension (Rust `Path::file_stem`). -/
def fileStem (name : String) : String :=
  let rcs := name.data.reverse
  let ext := rcs.takeWhile (fun c => decide (c ≠ '.'))
  match rcs.drop ext.length with
  | [] => name
  | _ :: [] => name
  | _ :: stemR => String.mk stemR.reverse

/-- Rust `PathBuf::set_extension e`: replace the extension of the last
component by `e`; a path without a file name is returned unchanged. -/
def Path.setExtension (p : Path) (e : String) : Path :=
  if hc : p.components = [] then p
  else ⟨p.absolute, p.components.dropLast ++ [fileStem (p.components.getLast hc) ++ "." ++ e]⟩

/-- The filesystem: a finite map from paths to file contents, as an
association list with at most one entry per path. -/
abbrev FS := List (Path × String)

/-- Contents of the file at `p`, or `none` when no file exists there. -/
def FS.read : FS → Path → Option String
  | [], _ => none
  | (q, b) :: rest, p => if q = p then some b else FS.read rest p

/-- Remove the file at `p` (a no-op when absent). -/
def FS.del (fs : FS) (p : Path) : FS :=
  fs.filter (fun e => decide (e.1 ≠ p))

/-- Create or replace the file at `p` with contents `b`. -/
def FS.set (fs : FS) (p : Path) (b : String) : FS :=
  (p, b) :: FS.del fs p

/-- The decimal digit character for `d < 10`. -/
def digitChar (d : Nat) : Char :=
  Char.ofNat (48 + d)

/-- Fuel-driven most-significant-first decimal digits of `n`; with fuel at
least `n` the fuel never runs out. -/
def decCharsAux : Nat → Nat → List Char
  | _, 0 => []
  | 0, _ + 1 => []
  | f + 1, n + 1 => decCharsAux f ((n + 1) / 10) ++ [digitChar ((n + 1) % 10)]

/-- Decimal digits of `n`, empty for `0`. -/
def decChars (n : Nat) : List Char :=
  decCharsAux n n

/-- Decimal rendering of a natural, modelling Rust `Display` for the
unsigned integers used in the staging disambiguator. -/
def natStr (n : Nat) : String :=
  if n = 0 then "0" else String.mk (decChars n)

/-- The staging disambiguator `format!("{}_{:?}_{}", pid, tid, z)` where the
`Debug` form of a thread id is `ThreadId(n)`. -/
def mkDisamb (pid tid z : Nat) : String :=
  natStr pid ++ "_ThreadId(" ++ natStr tid ++ ")_" ++ natStr z

/-- Environment of one `store_path` call: process and thread identity, the
clock reading available at each loop iteration (`none` models
`duration_since(UNIX_EPOCH)` returning `Err`), and the success of each
fallible filesystem primitive. -/
structure Env where
  pid : Nat
  tid : Nat
  clock : Nat → Option Nat
  createDirOk : Bool
  openOk : Bool
  writeOk : Bool
  flushOk : Bool
  renameOk : Bool

/-- The staging extension drawn at loop iteration `i`: the clock reading
when it succeeds, else the loop counter (`unwrap_or(i)`). -/
def disamb (env : Env) (i : Nat) : String :=
  mkDisamb env.pid env.tid ((env.clock i).getD i)

/-- The staging path candidate drawn at loop iteration `i`. -/
def candidate (env : Env) (p : Path) (i : Nat) : Path :=
  p.setExtension (disamb env i)

/-- The staging-path selection loop of `store_path`: starting at iteration
`i`, redraw the candidate until one does not exist.  The source loop has no
exit on failure; `fuel` bounds the search so the function is total, and
`none` reports that the loop did not terminate within `fuel` iterations. -/
def stagingSearch (env : Env) (fs : FS) (p : Path) : Nat → Nat → Option Path
  | 0, _ => none
  | fuel + 1, i =>
    match FS.read fs (candidate env p i) with
    | none => some (candidate env p i)
    | some _ => stagingSearch env fs p fuel (i + 1)

/-- The causes an `std::io::Error` can indicate, as far as the claims need. -/
inductive IOErrorKind
  | notFound
  | permissionDenied
  | other
deriving DecidableEq

/-- The `ConfyError` enumeration of src/lib.rs in its TOML build. -/
inductive ConfyError
  | BadTomlData
  | DirectoryCreationFailed
  | GeneralLoadError (cause : IOErrorKind)
  | BadConfigDirectory (msg : String)
  | SerializeTomlError
  | WriteConfigurationFileError
  | ReadConfigurationFileError
  | OpenConfigurationFileError
deriving DecidableEq

/-- The `thiserror` `Display` rendering of each error variant. -/
def ConfyError.render : ConfyError → String
  | .BadTomlData => "Bad TOML data"
  | .DirectoryCreationFailed => "Failed to create directory"
  | .GeneralLoadError _ => "Failed to load configuration file"
  | .BadConfigDirectory s => "Bad configuration directory: " ++ s
  | .SerializeTomlError => "Failed to serialize configuration data into TOML"
  | .WriteConfigurationFileError => "Failed to write configuration file"
  | .ReadConfigurationFileError => "Failed to read configuration file"
  | .OpenConfigurationFileError => "Failed to open configuration file"

/-- The build-selected codec over the caller's opaque value type:
`toml::to_string_pretty` (which can fail with a serialization error,
modelled as `none`) and `toml::from_str` (which can fail with a parse
error, modelled as `none`). -/
structure Codec (α : Type) where
  encode : α → Option String
  decode : String → Option α

/-- `store_path` of src/lib.rs over the filesystem model.  Mirrors the
source step by step: parent lookup, `create_dir_all` on the parent,
encoding, the staging-path loop, `OpenOptions` open with create and
truncate, `write_all`, `flush`, and `fs::rename` onto the target.  The
overall result is `none` exactly when the staging loop exhausts `fuel`;
otherwise it is the call's result paired with the filesystem after the
call.  A failed `write_all` is modelled as writing nothing to the staging
file; the claims never inspect staging contents after a failure. -/
def store_path {α : Type} (cod : Codec α) (env : Env) (fuel : Nat) (fs : FS)
    (path : Path) (cfg : α) : Option (Except ConfyError Unit × FS) :=
  match path.parent with
  | none =>
    some (.error (.BadConfigDirectory (path.debugStr ++ " is a root or prefix")), fs)
  | some _ =>
    if env.createDirOk = false then some (.error .DirectoryCreationFailed, fs)
    else
      match cod.encode cfg with
      | none => some (.error .SerializeTomlError, fs)
      | some s =>
        match stagingSearch env fs path fuel 1 with
        | none => none
        | some tmp =>
          if env.openOk = false then some (.error .OpenConfigurationFileError, fs)
          else
            if env.writeOk = false then
              some (.error .WriteConfigurationFileError, FS.set fs tmp "")
            else
              if env.flushOk = false then
                some (.error .WriteConfigurationFileError, FS.set (FS.set fs tmp "") tmp s)
              else
                if env.renameOk = false then
                  some (.error .WriteConfigurationFileError, FS.set (FS.set fs tmp "") tmp s)
                else
                  match FS.read (FS.set (FS.set fs tmp "") tmp s) tmp with
                  | some c =>
                    some (.ok (), FS.set (FS.del (FS.set (FS.set fs tmp "") tmp s) tmp) path c)
                  | none =>
                    some (.error .WriteConfigurationFileError, FS.set (FS.set fs tmp "") tmp s)

/-- Environment of one `load_path` call: an OS-level open failure that can
hit even an existing file, and whether reading the opened handle to a
string succeeds. -/
structure LoadEnv where
  openFail : Option IOErrorKind
  readOk : Bool

/-- `load_path` of src/lib.rs over the filesystem model: `File::open`
(failing with `GeneralLoadError`, with cause `NotFound` when no file
exists), then reading the handle to text, then `toml::from_str`.

Modelled from the spec: the body of `utils::get_string` is not under
`src/`; per spec §4.3 it reads the entire file to text and surfaces a
`ReadConfigurationFileError` on read failure, which `env.readOk` drives. -/
def load_path {α : Type} (cod : Codec α) (env : LoadEnv) (fs : FS) (p : Path) :
    Except ConfyError α × FS :=
  match FS.read fs p with
  | none => (.error (.GeneralLoadError .notFound), fs)
  | some text =>
    match env.openFail with
    | some k => (.error (.GeneralLoadError k), fs)
    | none =>
      if env.readOk = false then (.error .ReadConfigurationFileError, fs)
      else
        match cod.decode text with
        | none => (.error .BadTomlData, fs)
        | some v => (.ok v, fs)

/-- One atomic filesystem action of the write protocol, for reasoning about
two interleaved `store_path` calls past their staging-path selection. -/
inductive WAct
  | openT
  | writeT
  | flushT
  | renameT
deriving DecidableEq

/-- One writer of the concurrent protocol: its chosen staging path, the
shared target path, and its encoded text. -/
structure Writer where
  tmp : Path
  target : Path
  text : String

/-- Effect of one action of writer `w` on the filesystem.  `openT` creates
or truncates the staging file, `writeT` writes the encoded text through the
open handle, `flushT` flushes (no filesystem effect), `renameT` renames the
staging file onto the target.  `none` signals the action failing (a write
or rename with no staging file). -/
def applyAct (w : Writer) (fs : FS) : WAct → Option FS
  | .openT => some (FS.set fs w.tmp "")
  | .writeT =>
    match FS.read fs w.tmp with
    | some _ => some (FS.set fs w.tmp w.text)
    | none => none
  | .flushT => some fs
  | .renameT =>
    match FS.read fs w.tmp with
    | some c => some (FS.set (FS.del fs w.tmp) w.target c)
    | none => none

/-- The action sequence of one `store_path` call after staging selection. -/
def writerProg : List WAct :=
  [.openT, .writeT, .flushT, .renameT]

/-- Run two writers under a schedule: `true` steps writer one, `false`
steps writer two.  Returns the trace of filesystem states (initial state of
each step, then the final state) or `none` when an action fails or the
schedule does not exhaust both action lists exactly. -/
def run2T (w₁ w₂ : Writer) : List Bool → List WAct → List WAct → FS → Option (List FS)
  | [], as₁, as₂, fs =>
    match as₁, as₂ with
    | [], [] => some [fs]
    | _, _ => none
  | true :: sch, as₁, as₂, fs =>
    match as₁ with
    | a :: as₁' =>
      match applyAct w₁ fs a with
      | some fs' => (run2T w₁ w₂ sch as₁' as₂ fs').map (fun tr => fs :: tr)
      | none => none
    | [] => none
  | false :: sch, as₁, as₂, fs =>
    match as₂ with
    | a :: as₂' =>
      match applyAct w₂ fs a with
      | some fs' => (run2T w₁ w₂ sch as₁ as₂' fs').map (fun tr => fs :: tr)
      | none => none
    | [] => none

/-- Staging-file invariant of one writer after `k` of its actions. -/
def tmpStageK (w : Writer) (fs : FS) : Nat → Prop
  | 0 => True
  | 1 => ∃ c, FS.read fs w.tmp = some c
  | 2 => FS.read fs w.tmp = some w.text
  | 3 => FS.read fs w.tmp = some w.text
  | _ + 4 => True

/-- Target-file invariant when writer one has done `k₁` and writer two `k₂`
of their four actions: the target still holds its prior contents until a
rename lands, and afterwards the text of the writer that renamed last. -/
def targetInvK (p : Path) (B s₁ s₂ : String) (k₁ k₂ : Nat) (fs : FS) : Prop :=
  if k₁ = 4 then
    if k₂ = 4 then FS.read fs p = some s₁ ∨ FS.read fs p = some s₂
    else FS.read fs p = some s₁
  else
    if k₂ = 4 then FS.read fs p = some s₂
    else FS.read fs p = some B

/-- A total codec over `Bool`, used to exercise the operations on concrete
inputs. -/
def demoCodec : Codec Bool where
  encode := fun b => some (if b then "flag = true" else "flag = false")
  decode := fun s =>
    if s = "flag = true" then some true
    else if s = "flag = false" then some false
    else none

/-- A codec whose encoder always fails, like the `CannotSerialize` value of
the source's tests. -/
def failCodec : Codec Unit where
  encode := fun _ => none
  decode := fun _ => none

/-- An environment in which every filesystem primitive succeeds and the
clock reads `some 99` at every iteration. -/
def okEnv : Env where
  pid := 7
  tid := 3
  clock := fun _ => some 99
  createDirOk := true
  openOk := true
  writeOk := true
  flushOk := true
  renameOk := true

/-- A load environment in which opening and reading succeed. -/
def okLoadEnv : LoadEnv where
  openFail := none
  readOk := true

/-- A concrete target path `/app/cfg.toml`. -/
def targetPath : Path := ⟨true, ["app", "cfg.toml"]⟩

/-- An environment like `okEnv` but whose staging write fails. -/
def writeFailEnv : Env := { okEnv with writeOk := false }

/-- A concrete path whose own extension coincides with the disambiguator
drawn under `okEnv`'s identity and clock, so the staging path is the path
itself. -/
def cornerPath : Path := ⟨true, ["app", "cfg.7_ThreadId(3)_99"]⟩

/-- An environment whose clock always succeeds with the same reading. -/
def frozenEnv : Env := { okEnv with clock := fun _ => some 5 }

/-- A filesystem occupying the unique staging candidate that `frozenEnv`
ever draws for `targetPath`. -/
def frozenFS : FS := [(candidate frozenEnv targetPath 1, "junk")]

/-- An environment whose clock reading always fails. -/
def clockFailEnv : Env := { okEnv with clock := fun _ => none }

/-- Concrete staging paths of two same-process writers on distinct threads. -/
def cTmp₁ : Path := targetPath.setExtension (mkDisamb 1 2 5)

/-- Second writer's concrete staging path. -/
def cTmp₂ : Path := targetPath.setExtension (mkDisamb 1 3 5)

/-- A concrete schedule interleaving two writers: writer one runs fully,
then writer two. -/
def cSch : List Bool := [true, true, true, true, false, false, false, false]

/-- A concrete initial filesystem holding prior bytes at the target. -/
def cFS : FS := [(targetPath, "old")]

/-- A writer whose drawn disambiguator coincides with the extension of its
own (absent) target, so its staging path is the target itself. -/
def cexW₁ : Writer := ⟨cornerPath, cornerPath, "a"⟩

/-- A second same-process writer on a different thread; its staging path is
distinct from the target. -/
def cexW₂ : Writer := ⟨cornerPath.setExtension (mkDisamb 7 4 99), cornerPath, "b"⟩

/-- The trace of the two corner writers under the sequential schedule,
starting from an empty filesystem. -/
def cexTrace : List FS :=
  (run2T cexW₁ cexW₂ cSch writerProg writerProg ([] : FS)).getD []

theorem FS.read_set_self (fs : FS) (p : Path) (b : String) :
    FS.read (FS.set fs p b) p = some b := by
  simp [FS.set, FS.read]

theorem FS.del_cons_hit {e : Path × String} {rest : FS} {p : Path} (he : e.1 = p) :
    FS.del (e :: rest) p = FS.del rest p := by
  simp [FS.del, List.filter_cons, he]

theorem FS.del_cons_miss {e : Path × String} {rest : FS} {p : Path} (he : e.1 ≠ p) :
    FS.del (e :: rest) p = e :: FS.del rest p := by
  simp [FS.del, List.filter_cons, he]

theorem FS.read_del_ne (fs : FS) {p q : Path} (h : q ≠ p) :
    FS.read (FS.del fs p) q = FS.read fs q := by
  induction fs with
  | nil => rfl
  | cons e rest ih =>
    by_cases he : e.1 = p
    · rw [FS.del_cons_hit he, ih]
      have hq : e.1 ≠ q := by rw [he]; exact fun hh => h hh.symm
      simp [FS.read, hq]
    · rw [FS.del_cons_miss he]
      show (if e.1 = q then some e.2 else FS.read (FS.del rest p) q) = _
      by_cases heq : e.1 = q
      · simp [FS.read, heq]
      · simp [FS.read, heq, ih]

theorem FS.read_del_self (fs : FS) (p : Path) :
    FS.read (FS.del fs p) p = none := by
  induction fs with
  | nil => rfl
  | cons e rest ih =>
    by_cases he : e.1 = p
    · rw [FS.del_cons_hit he, ih]
    · rw [FS.del_cons_miss he]
      simpa [FS.read, he] using ih

theorem FS.read_set_ne (fs : FS) {p q : Path} (b : String) (h : q ≠ p) :
    FS.read (FS.set fs p b) q = FS.read fs q := by
  have hp : p ≠ q := fun hh => h hh.symm
  simp [FS.set, FS.read, hp, FS.read_del_ne fs h]

theorem FS.mem_keys_of_read_ne_none {fs : FS} {q : Path} (h : FS.read fs q ≠ none) :
    q ∈ fs.map Prod.fst := by
  induction fs with
  | nil => simp [FS.read] at h
  | cons e rest ih =>
    by_cases he : e.1 = q
    · simp [he]
    · simp only [FS.read, he, if_false] at h
      simp [ih h]

theorem decCharsAux_zero (f : Nat) : decCharsAux f 0 = [] := by
  cases f <;> rfl

theorem decCharsAux_fuel : ∀ f₁ : Nat, ∀ f₂ n : Nat, n ≤ f₁ → n ≤ f₂ →
    decCharsAux f₁ n = decCharsAux f₂ n := by
  intro f₁
  induction f₁ with
  | zero =>
    intro f₂ n h₁ _
    interval_cases n
    simp [decCharsAux_zero]
  | succ f ih =>
    intro f₂ n h₁ h₂
    match n, f₂ with
    | 0, f₂ => simp [decCharsAux_zero]
    | n + 1, 0 => omega
    | n + 1, f₂ + 1 =>
      show decCharsAux f ((n + 1) / 10) ++ _ = decCharsAux f₂ ((n + 1) / 10) ++ _
      have hd : (n + 1) / 10 ≤ n := by
        have := Nat.div_lt_self (Nat.succ_pos n) (by norm_num : (1:Nat) < 10)
        omega
      rw [ih f₂ ((n + 1) / 10) (by omega) (by omega)]

theorem decChars_succ (n : Nat) :
    decChars (n + 1) = decChars ((n + 1) / 10) ++ [digitChar ((n + 1) % 10)] := by
  show decCharsAux n ((n + 1) / 10) ++ _ = decCharsAux ((n + 1) / 10) ((n + 1) / 10) ++ _
  have hd : (n + 1) / 10 ≤ n := by
    have := Nat.div_lt_self (Nat.succ_pos n) (by norm_num : (1:Nat) < 10)
    omega
  rw [decCharsAux_fuel n ((n + 1) / 10) ((n + 1) / 10) hd le_rfl]

theorem decChars_ne_nil {n : Nat} (h : 0 < n) : decChars n ≠ [] := by
  match n, h with
  | n + 1, _ => simp [decChars_succ]

theorem decChars_digits : ∀ n : Nat, ∀ c ∈ decChars n, ∃ d, d < 10 ∧ c = digitChar d := by
  intro n
  induction n using Nat.strong_induction_on with
  | _ n ih =>
    match n with
    | 0 => intro c hc; simp [decChars, decCharsAux] at hc
    | n + 1 =>
      intro c hc
      rw [decChars_succ] at hc
      rcases List.mem_append.mp hc with h | h
      · exact ih ((n + 1) / 10) (Nat.div_lt_self (Nat.succ_pos n) (by norm_num)) c h
      · refine ⟨(n + 1) % 10, Nat.mod_lt _ (by norm_num), ?_⟩
        simpa using h

theorem digitChar_inj : ∀ a, a < 10 → ∀ b, b < 10 → digitChar a = digitChar b → a = b := by
  decide

theorem decChars_inj : ∀ m n : Nat, decChars m = decChars n → m = n := by
  intro m
  induction m using Nat.strong_induction_on with
  | _ m ih =>
    intro n h
    match m, n with
    | 0, 0 => rfl
    | 0, n + 1 =>
      exact absurd h.symm (decChars_ne_nil (Nat.succ_pos n))
    | m + 1, 0 =>
      exact absurd h (decChars_ne_nil (Nat.succ_pos m))
    | m + 1, n + 1 =>
      rw [decChars_succ, decChars_succ] at h
      have hsp := List.append_inj' h (by simp)
      have h₁ : (m + 1) / 10 = (n + 1) / 10 :=
        ih ((m + 1) / 10) (Nat.div_lt_self (Nat.succ_pos m) (by norm_num)) _ hsp.1
      have h₂ : (m + 1) % 10 = (n + 1) % 10 := by
        have := hsp.2
        simp only [List.cons.injEq] at this
        exact digitChar_inj _ (Nat.mod_lt _ (by norm_num)) _ (Nat.mod_lt _ (by norm_num)) this.1
      omega

theorem decChars_ne_singleton_zero (n : Nat) (hn : n ≠ 0) : decChars n ≠ ['0'] := by
  match n, hn with
  | n + 1, _ =>
    intro h0
    rw [decChars_succ] at h0
    have h0' : decChars ((n + 1) / 10) ++ [digitChar ((n + 1) % 10)] =
        ([] : List Char) ++ ['0'] := by simpa using h0
    have hsp := List.append_inj' h0' rfl
    have hnil : (n + 1) / 10 = 0 := by
      by_contra hz
      exact decChars_ne_nil (Nat.pos_of_ne_zero hz) hsp.1
    have hmod : (n + 1) % 10 = 0 := by
      have hc : digitChar ((n + 1) % 10) = digitChar 0 := by
        have h2 := hsp.2
        simp only [List.cons.injEq] at h2
        rw [h2.1]
        decide
      exact digitChar_inj _ (Nat.mod_lt _ (by norm_num)) 0 (by norm_num) hc
    omega

theorem natStr_inj : ∀ m n : Nat, natStr m = natStr n → m = n := by
  intro m n h
  by_cases hm : m = 0 <;> by_cases hn : n = 0
  · omega
  · exfalso
    subst hm
    have h' : ("0" : String) = String.mk (decChars n) := by simpa [natStr, hn] using h
    have hd : decChars n = ['0'] := by
      have := congrArg String.data h'
      simpa using this.symm
    exact decChars_ne_singleton_zero n hn hd
  · exfalso
    subst hn
    have h' : String.mk (decChars m) = ("0" : String) := by simpa [natStr, hm] using h
    have hd : decChars m = ['0'] := by
      have := congrArg String.data h'
      simpa using this
    exact decChars_ne_singleton_zero m hm hd
  · have h' : String.mk (decChars m) = String.mk (decChars n) := by
      simpa [natStr, hm, hn] using h
    exact decChars_inj m n (by simpa using congrArg String.data h')

theorem natStr_data_digits (n : Nat) :
    ∀ c ∈ (natStr n).data, ∃ d, d < 10 ∧ c = digitChar d := by
  intro c hc
  by_cases hn : n = 0
  · subst hn
    simp only [natStr, if_pos rfl] at hc
    refine ⟨0, by norm_num, ?_⟩
    have : c = '0' := by simpa using hc
    simpa [digitChar] using this
  · simp only [natStr, hn, if_neg, if_false] at hc
    exact decChars_digits n c (by simpa using hc)

theorem digitChar_ne_underscore : ∀ d, d < 10 → digitChar d ≠ '_' := by decide

theorem digitChar_ne_rparen : ∀ d, d < 10 → digitChar d ≠ ')' := by decide

theorem natStr_underscore_not_mem (n : Nat) : '_' ∉ (natStr n).data := by
  intro h
  obtain ⟨d, hd, hc⟩ := natStr_data_digits n '_' h
  exact digitChar_ne_underscore d hd hc.symm

theorem natStr_rparen_not_mem (n : Nat) : ')' ∉ (natStr n).data := by
  intro h
  obtain ⟨d, hd, hc⟩ := natStr_data_digits n ')' h
  exact digitChar_ne_rparen d hd hc.symm

theorem append_sep_inj {α : Type} [DecidableEq α] :
    ∀ l₁ l₂ r₁ r₂ : List α, ∀ c : α,
      l₁ ++ c :: r₁ = l₂ ++ c :: r₂ → c ∉ l₁ → c ∉ l₂ → l₁ = l₂ ∧ r₁ = r₂ := by
  intro l₁
  induction l₁ with
  | nil =>
    intro l₂ r₁ r₂ c h h₁ h₂
    cases l₂ with
    | nil => simpa using h
    | cons y t =>
      exfalso
      simp only [List.nil_append, List.cons_append, List.cons.injEq] at h
      exact h₂ (h.1 ▸ List.mem_cons_self y t)
  | cons x t ih =>
    intro l₂ r₁ r₂ c h h₁ h₂
    cases l₂ with
    | nil =>
      exfalso
      simp only [List.nil_append, List.cons_append, List.cons.injEq] at h
      exact h₁ (h.1.symm ▸ List.mem_cons_self x t)
    | cons y t₂ =>
      simp only [List.cons_append, List.cons.injEq] at h
      have := ih t₂ r₁ r₂ c h.2 (fun hm => h₁ (List.mem_cons_of_mem x hm))
        (fun hm => h₂ (List.mem_cons_of_mem y hm))
      exact ⟨by rw [h.1, this.1], this.2⟩

theorem strData_append (a b : String) : (a ++ b).data = a.data ++ b.data := rfl

theorem mkDisamb_data (p t z : Nat) :
    (mkDisamb p t z).data =
      (natStr p).data ++
        '_' :: (("ThreadId(" : String).data ++
          ((natStr t).data ++ ')' :: '_' :: (natStr z).data)) := by
  show ((((natStr p ++ "_ThreadId(") ++ natStr t) ++ ")_") ++ natStr z).data = _
  simp only [strData_append]
  simp [List.append_assoc]

theorem mkDisamb_inj {p₁ t₁ z₁ p₂ t₂ z₂ : Nat}
    (h : mkDisamb p₁ t₁ z₁ = mkDisamb p₂ t₂ z₂) : p₁ = p₂ ∧ t₁ = t₂ ∧ z₁ = z₂ := by
  have hd := congrArg String.data h
  rw [mkDisamb_data, mkDisamb_data] at hd
  have h₁ := append_sep_inj _ _ _ _ '_' hd
    (natStr_underscore_not_mem p₁) (natStr_underscore_not_mem p₂)
  have hp := natStr_inj _ _ (String.ext h₁.1)
  have h₂ : (natStr t₁).data ++ ')' :: '_' :: (natStr z₁).data =
      (natStr t₂).data ++ ')' :: '_' :: (natStr z₂).data :=
    List.append_cancel_left h₁.2
  have h₃ := append_sep_inj _ _ _ _ ')' h₂
    (natStr_rparen_not_mem t₁) (natStr_rparen_not_mem t₂)
  have ht := natStr_inj _ _ (String.ext h₃.1)
  have h₄ : (natStr z₁).data = (natStr z₂).data := by
    have h5 := h₃.2
    simpa using h5
  exact ⟨hp, ht, natStr_inj _ _ (String.ext h₄)⟩

theorem Path.setExtension_inj {p : Path} (hc : p.components ≠ []) {e₁ e₂ : String}
    (h : p.setExtension e₁ = p.setExtension e₂) : e₁ = e₂ := by
  unfold Path.setExtension at h
  rw [dif_neg hc, dif_neg hc] at h
  have hcomp := congrArg Path.components h
  simp only at hcomp
  have h₂ := List.append_cancel_left hcomp
  have h₃ : (fileStem (p.components.getLast hc) ++ ".") ++ e₁ =
      (fileStem (p.components.getLast hc) ++ ".") ++ e₂ := by
    simpa using h₂
  have hd := congrArg String.data h₃
  rw [strData_append, strData_append] at hd
  exact String.ext (List.append_cancel_left hd)

theorem candidate_ne_of_disamb_ne {env₁ env₂ : Env} {p : Path} (hc : p.components ≠ [])
    {i j : Nat} (hd : disamb env₁ i ≠ disamb env₂ j) :
    candidate env₁ p i ≠ candidate env₂ p j :=
  fun h => hd (Path.setExtension_inj hc h)

theorem stagingSearch_read_none {env : Env} {fs : FS} {p : Path} :
    ∀ fuel i tmp, stagingSearch env fs p fuel i = some tmp → FS.read fs tmp = none := by
  intro fuel
  induction fuel with
  | zero => intro i tmp h; simp [stagingSearch] at h
  | succ f ih =>
    intro i tmp h
    simp only [stagingSearch] at h
    cases hr : FS.read fs (candidate env p i) with
    | none =>
      rw [hr] at h
      simp only [Option.some.injEq] at h
      rw [← h]
      exact hr
    | some b =>
      rw [hr] at h
      exact ih (i + 1) tmp h

theorem stagingSearch_none_read {env : Env} {fs : FS} {p : Path} :
    ∀ fuel i, stagingSearch env fs p fuel i = none →
      ∀ k, k < fuel → FS.read fs (candidate env p (i + k)) ≠ none := by
  intro fuel
  induction fuel with
  | zero => intro i _ k hk; omega
  | succ f ih =>
    intro i h k hk
    simp only [stagingSearch] at h
    cases hr : FS.read fs (candidate env p i) with
    | none => rw [hr] at h; simp at h
    | some b =>
      rw [hr] at h
      match k with
      | 0 => simp [hr]
      | k + 1 =>
        have hres := ih (i + 1) h k (by omega)
        have harith : i + 1 + k = i + (k + 1) := by omega
        rwa [harith] at hres

theorem store_path_ok_read {α : Type} {cod : Codec α} {env : Env} {fuel : Nat}
    {fs fs' : FS} {p : Path} {v : α}
    (h : store_path cod env fuel fs p v = some (.ok (), fs')) :
    ∃ s, cod.encode v = some s ∧ FS.read fs' p = some s := by
  unfold store_path at h
  split at h
  · simp at h
  · split at h
    · simp at h
    · split at h
      · simp at h
      · rename_i s henc
        split at h
        · simp at h
        · rename_i tmp hss
          split at h
          · simp at h
          · split at h
            · simp at h
            · split at h
              · simp at h
              · split at h
                · simp at h
                · split at h
                  · rename_i c hread
                    rw [FS.read_set_self] at hread
                    injection hread with hread'
                    simp only [Option.some.injEq, Prod.mk.injEq] at h
                    refine ⟨s, henc, ?_⟩
                    rw [← h.2, FS.read_set_self, ← hread']
                  · simp at h

theorem store_path_err_fs_step {α : Type} {cod : Codec α} {env : Env} {fuel : Nat}
    {fs fs' : FS} {p : Path} {v : α} {e : ConfyError}
    (he : e = ConfyError.OpenConfigurationFileError ∨
          e = ConfyError.WriteConfigurationFileError)
    (h : store_path cod env fuel fs p v = some (.error e, fs')) :
    ∃ tmp s, stagingSearch env fs p fuel 1 = some tmp ∧ cod.encode v = some s ∧
      (fs' = fs ∨ fs' = FS.set fs tmp "" ∨ fs' = FS.set (FS.set fs tmp "") tmp s) := by
  unfold store_path at h
  split at h
  · rcases he with he | he <;> subst he <;> simp at h
  · split at h
    · rcases he with he | he <;> subst he <;> simp at h
    · split at h
      · rcases he with he | he <;> subst he <;> simp at h
      · rename_i s henc
        split at h
        · simp at h
        · rename_i tmp hss
          refine ⟨tmp, s, hss, henc, ?_⟩
          split at h
          · simp only [Option.some.injEq, Prod.mk.injEq] at h
            exact Or.inl h.2.symm
          · split at h
            · simp only [Option.some.injEq, Prod.mk.injEq] at h
              exact Or.inr (Or.inl h.2.symm)
            · split at h
              · simp only [Option.some.injEq, Prod.mk.injEq] at h
                exact Or.inr (Or.inr h.2.symm)
              · split at h
                · simp only [Option.some.injEq, Prod.mk.injEq] at h
                  exact Or.inr (Or.inr h.2.symm)
                · split at h
                  · simp at h
                  · simp only [Option.some.injEq, Prod.mk.injEq] at h
                    exact Or.inr (Or.inr h.2.symm)

theorem run2T_true (w₁ w₂ : Writer) (sch : List Bool) (a : WAct) (as₁ as₂ : List WAct)
    (fs : FS) :
    run2T w₁ w₂ (true :: sch) (a :: as₁) as₂ fs =
      match applyAct w₁ fs a with
      | some fs' => (run2T w₁ w₂ sch as₁ as₂ fs').map (fun tr => fs :: tr)
      | none => none := rfl

theorem run2T_false (w₁ w₂ : Writer) (sch : List Bool) (a : WAct) (as₁ as₂ : List WAct)
    (fs : FS) :
    run2T w₁ w₂ (false :: sch) as₁ (a :: as₂) fs =
      match applyAct w₂ fs a with
      | some fs' => (run2T w₁ w₂ sch as₁ as₂ fs').map (fun tr => fs :: tr)
      | none => none := rfl

theorem tmpStageK_congr {w : Writer} {fs fs' : FS} {k : Nat}
    (h : FS.read fs' w.tmp = FS.read fs w.tmp) :
    tmpStageK w fs k → tmpStageK w fs' k := by
  match k with
  | 0 => intro _; trivial
  | 1 => intro hc; obtain ⟨c, hc⟩ := hc; exact ⟨c, h.trans hc⟩
  | 2 => intro hc; rw [tmpStageK, h]; exact hc
  | 3 => intro hc; rw [tmpStageK, h]; exact hc
  | k + 4 => intro _; trivial

theorem targetInvK_good {p : Path} {B s₁ s₂ : String} {k₁ k₂ : Nat} {fs : FS}
    (h : targetInvK p B s₁ s₂ k₁ k₂ fs) :
    FS.read fs p = some B ∨ FS.read fs p = some s₁ ∨ FS.read fs p = some s₂ := by
  unfold targetInvK at h
  split_ifs at h <;> tauto

theorem getLast?_cons_of_some {α : Type} {l : List α} {a x : α}
    (h : l.getLast? = some x) : (a :: l).getLast? = some x := by
  cases l with
  | nil => simp at h
  | cons b t => rw [List.getLast?_cons_cons]; exact h

theorem run2T_spec (w₁ w₂ : Writer) (p : Path) (B : String)
    (hT₁ : w₁.target = p) (hT₂ : w₂.target = p)
    (hne : w₁.tmp ≠ w₂.tmp) (hp₁ : w₁.tmp ≠ p) (hp₂ : w₂.tmp ≠ p) :
    ∀ sch : List Bool, ∀ k₁ k₂ : Nat, ∀ fs : FS,
      k₁ ≤ 4 → k₂ ≤ 4 →
      sch.count true = 4 - k₁ → sch.count false = 4 - k₂ →
      tmpStageK w₁ fs k₁ → tmpStageK w₂ fs k₂ →
      targetInvK p B w₁.text w₂.text k₁ k₂ fs →
      ∃ tr x, run2T w₁ w₂ sch (writerProg.drop k₁) (writerProg.drop k₂) fs = some tr ∧
        tr.getLast? = some x ∧
        (∀ y ∈ tr, FS.read y p = some B ∨ FS.read y p = some w₁.text ∨
          FS.read y p = some w₂.text) ∧
        (FS.read x p = some w₁.text ∨ FS.read x p = some w₂.text) := by
  intro sch
  induction sch with
  | nil =>
    intro k₁ k₂ fs hk₁ hk₂ hc₁ hc₂ _ _ htgt
    have hk₁' : k₁ = 4 := by simp at hc₁; omega
    have hk₂' : k₂ = 4 := by simp at hc₂; omega
    subst hk₁'; subst hk₂'
    have hfinal : FS.read fs p = some w₁.text ∨ FS.read fs p = some w₂.text := by
      simpa [targetInvK] using htgt
    refine ⟨[fs], fs, rfl, rfl, ?_, hfinal⟩
    intro y hy
    have hy' : y = fs := by simpa using hy
    subst hy'
    tauto
  | cons b sch ih =>
    intro k₁ k₂ fs hk₁ hk₂ hc₁ hc₂ hs₁ hs₂ htgt
    have hgfs := targetInvK_good htgt
    cases b with
    | true =>
      have hcc₁ : sch.count true = 4 - (k₁ + 1) ∧ k₁ ≤ 3 := by
        simp [List.count_cons] at hc₁
        omega
      have hcc₂ : sch.count false = 4 - k₂ := by
        simpa [List.count_cons] using hc₂
      have hk₁3 : k₁ ≤ 3 := hcc₁.2
      interval_cases k₁
      · -- writer 1 opens its staging file
        rw [show writerProg.drop 0 = WAct.openT :: writerProg.drop 1 from rfl,
          run2T_true]
        have happ : applyAct w₁ fs .openT = some (FS.set fs w₁.tmp "") := rfl
        rw [happ]
        have hrt : FS.read (FS.set fs w₁.tmp "") w₁.tmp = some "" := FS.read_set_self _ _ _
        have hro : FS.read (FS.set fs w₁.tmp "") w₂.tmp = FS.read fs w₂.tmp :=
          FS.read_set_ne _ _ (Ne.symm hne)
        have hrp : FS.read (FS.set fs w₁.tmp "") p = FS.read fs p :=
          FS.read_set_ne _ _ (fun h => hp₁ h.symm)
        obtain ⟨tr, x, hrun, hlast, hgood, hfin⟩ :=
          ih 1 k₂ (FS.set fs w₁.tmp "") (by omega) hk₂ hcc₁.1 hcc₂
            ⟨"", hrt⟩ (tmpStageK_congr hro hs₂)
            (by
              simp only [targetInvK] at htgt ⊢
              rw [hrp]
              simpa using htgt)
        refine ⟨fs :: tr, x, ?_, getLast?_cons_of_some hlast, ?_, hfin⟩
        · simpa using hrun
        · intro y hy
          rcases List.mem_cons.mp hy with hy | hy
          · subst hy; exact hgfs
          · exact hgood y hy
      · -- writer 1 writes its text
        rw [show writerProg.drop 1 = WAct.writeT :: writerProg.drop 2 from rfl,
          run2T_true]
        obtain ⟨c, hc⟩ := hs₁
        have happ : applyAct w₁ fs .writeT = some (FS.set fs w₁.tmp w₁.text) := by
          simp [applyAct, hc]
        rw [happ]
        have hrt : FS.read (FS.set fs w₁.tmp w₁.text) w₁.tmp = some w₁.text :=
          FS.read_set_self _ _ _
        have hro : FS.read (FS.set fs w₁.tmp w₁.text) w₂.tmp = FS.read fs w₂.tmp :=
          FS.read_set_ne _ _ (Ne.symm hne)
        have hrp : FS.read (FS.set fs w₁.tmp w₁.text) p = FS.read fs p :=
          FS.read_set_ne _ _ (fun h => hp₁ h.symm)
        obtain ⟨tr, x, hrun, hlast, hgood, hfin⟩ :=
          ih 2 k₂ (FS.set fs w₁.tmp w₁.text) (by omega) hk₂ hcc₁.1 hcc₂
            hrt (tmpStageK_congr hro hs₂)
            (by
              simp only [targetInvK] at htgt ⊢
              rw [hrp]
              simpa using htgt)
        refine ⟨fs :: tr, x, ?_, getLast?_cons_of_some hlast, ?_, hfin⟩
        · simpa using hrun
        · intro y hy
          rcases List.mem_cons.mp hy with hy | hy
          · subst hy; exact hgfs
          · exact hgood y hy
      · -- writer 1 flushes
        rw [show writerProg.drop 2 = WAct.flushT :: writerProg.drop 3 from rfl,
          run2T_true]
        have happ : applyAct w₁ fs .flushT = some fs := rfl
        rw [happ]
        obtain ⟨tr, x, hrun, hlast, hgood, hfin⟩ :=
          ih 3 k₂ fs (by omega) hk₂ hcc₁.1 hcc₂ hs₁ hs₂
            (by
              simp only [targetInvK] at htgt ⊢
              simpa using htgt)
        refine ⟨fs :: tr, x, ?_, getLast?_cons_of_some hlast, ?_, hfin⟩
        · simpa using hrun
        · intro y hy
          rcases List.mem_cons.mp hy with hy | hy
          · subst hy; exact hgfs
          · exact hgood y hy
      · -- writer 1 renames onto the target
        rw [show writerProg.drop 3 = WAct.renameT :: writerProg.drop 4 from rfl,
          run2T_true]
        have hc : FS.read fs w₁.tmp = some w₁.text := hs₁
        have happ : applyAct w₁ fs .renameT =
            some (FS.set (FS.del fs w₁.tmp) p w₁.text) := by
          simp [applyAct, hc, hT₁]
        rw [happ]
        have hrt : FS.read (FS.set (FS.del fs w₁.tmp) p w₁.text) p = some w₁.text :=
          FS.read_set_self _ _ _
        have hro : FS.read (FS.set (FS.del fs w₁.tmp) p w₁.text) w₂.tmp =
            FS.read fs w₂.tmp := by
          rw [FS.read_set_ne _ _ hp₂, FS.read_del_ne _ (Ne.symm hne)]
        obtain ⟨tr, x, hrun, hlast, hgood, hfin⟩ :=
          ih 4 k₂ (FS.set (FS.del fs w₁.tmp) p w₁.text) (by omega) hk₂ hcc₁.1 hcc₂
            trivial (tmpStageK_congr hro hs₂)
            (by
              simp only [targetInvK]
              by_cases hk24 : k₂ = 4 <;> simp [hk24, hrt])
        refine ⟨fs :: tr, x, ?_, getLast?_cons_of_some hlast, ?_, hfin⟩
        · simpa using hrun
        · intro y hy
          rcases List.mem_cons.mp hy with hy | hy
          · subst hy; exact hgfs
          · exact hgood y hy
    | false =>
      have hcc₂ : sch.count false = 4 - (k₂ + 1) ∧ k₂ ≤ 3 := by
        simp [List.count_cons] at hc₂
        omega
      have hcc₁ : sch.count true = 4 - k₁ := by
        simpa [List.count_cons] using hc₁
      have hk₂3 : k₂ ≤ 3 := hcc₂.2
      interval_cases k₂
      · -- writer 2 opens its staging file
        rw [show writerProg.drop 0 = WAct.openT :: writerProg.drop 1 from rfl,
          run2T_false]
        have happ : applyAct w₂ fs .openT = some (FS.set fs w₂.tmp "") := rfl
        rw [happ]
        have hrt : FS.read (FS.set fs w₂.tmp "") w₂.tmp = some "" := FS.read_set_self _ _ _
        have hro : FS.read (FS.set fs w₂.tmp "") w₁.tmp = FS.read fs w₁.tmp :=
          FS.read_set_ne _ _ hne
        have hrp : FS.read (FS.set fs w₂.tmp "") p = FS.read fs p :=
          FS.read_set_ne _ _ (fun h => hp₂ h.symm)
        obtain ⟨tr, x, hrun, hlast, hgood, hfin⟩ :=
          ih k₁ 1 (FS.set fs w₂.tmp "") hk₁ (by omega) hcc₁ hcc₂.1
            (tmpStageK_congr hro hs₁) ⟨"", hrt⟩
            (by
              simp only [targetInvK] at htgt ⊢
              rw [hrp]
              simpa using htgt)
        refine ⟨fs :: tr, x, ?_, getLast?_cons_of_some hlast, ?_, hfin⟩
        · simpa using hrun
        · intro y hy
          rcases List.mem_cons.mp hy with hy | hy
          · subst hy; exact hgfs
          · exact hgood y hy
      · -- writer 2 writes its text
        rw [show writerProg.drop 1 = WAct.writeT :: writerProg.drop 2 from rfl,
          run2T_false]
        obtain ⟨c, hc⟩ := hs₂
        have happ : applyAct w₂ fs .writeT = some (FS.set fs w₂.tmp w₂.text) := by
          simp [applyAct, hc]
        rw [happ]
        have hrt : FS.read (FS.set fs w₂.tmp w₂.text) w₂.tmp = some w₂.text :=
          FS.read_set_self _ _ _
        have hro : FS.read (FS.set fs w₂.tmp w₂.text) w₁.tmp = FS.read fs w₁.tmp :=
          FS.read_set_ne _ _ hne
        have hrp : FS.read (FS.set fs w₂.tmp w₂.text) p = FS.read fs p :=
          FS.read_set_ne _ _ (fun h => hp₂ h.symm)
        obtain ⟨tr, x, hrun, hlast, hgood, hfin⟩ :=
          ih k₁ 2 (FS.set fs w₂.tmp w₂.text) hk₁ (by omega) hcc₁ hcc₂.1
            (tmpStageK_congr hro hs₁) hrt
            (by
              simp only [targetInvK] at htgt ⊢
              rw [hrp]
              simpa using htgt)
        refine ⟨fs :: tr, x, ?_, getLast?_cons_of_some hlast, ?_, hfin⟩
        · simpa using hrun
        · intro y hy
          rcases List.mem_cons.mp hy with hy | hy
          · subst hy; exact hgfs
          · exact hgood y hy
      · -- writer 2 flushes
        rw [show writerProg.drop 2 = WAct.flushT :: writerProg.drop 3 from rfl,
          run2T_false]
        have happ : applyAct w₂ fs .flushT = some fs := rfl
        rw [happ]
        obtain ⟨tr, x, hrun, hlast, hgood, hfin⟩ :=
          ih k₁ 3 fs hk₁ (by omega) hcc₁ hcc₂.1 hs₁ hs₂
            (by
              simp only [targetInvK] at htgt ⊢
              simpa using htgt)
        refine ⟨fs :: tr, x, ?_, getLast?_cons_of_some hlast, ?_, hfin⟩
        · simpa using hrun
        · intro y hy
          rcases List.mem_cons.mp hy with hy | hy
          · subst hy; exact hgfs
          · exact hgood y hy
      · -- writer 2 renames onto the target
        rw [show writerProg.drop 3 = WAct.renameT :: writerProg.drop 4 from rfl,
          run2T_false]
        have hc : FS.read fs w₂.tmp = some w₂.text := hs₂
        have happ : applyAct w₂ fs .renameT =
            some (FS.set (FS.del fs w₂.tmp) p w₂.text) := by
          simp [applyAct, hc, hT₂]
        rw [happ]
        have hrt : FS.read (FS.set (FS.del fs w₂.tmp) p w₂.text) p = some w₂.text :=
          FS.read_set_self _ _ _
        have hro : FS.read (FS.set (FS.del fs w₂.tmp) p w₂.text) w₁.tmp =
            FS.read fs w₁.tmp := by
          rw [FS.read_set_ne _ _ hp₁, FS.read_del_ne _ hne]
        obtain ⟨tr, x, hrun, hlast, hgood, hfin⟩ :=
          ih k₁ 4 (FS.set (FS.del fs w₂.tmp) p w₂.text) hk₁ (by omega) hcc₁ hcc₂.1
            (tmpStageK_congr hro hs₁) trivial
            (by
              simp only [targetInvK]
              by_cases hk14 : k₁ = 4 <;> simp [hk14, hrt])
        refine ⟨fs :: tr, x, ?_, getLast?_cons_of_some hlast, ?_, hfin⟩
        · simpa using hrun
        · intro y hy
          rcases List.mem_cons.mp hy with hy | hy
          · subst hy; exact hgfs
          · exact hgood y hy

theorem load_path_ok_inv {α : Type} {cod : Codec α} {env : LoadEnv} {fs fs'' : FS}
    {p : Path} {w : α} (h : load_path cod env fs p = (.ok w, fs'')) :
    ∃ text, FS.read fs p = some text ∧ cod.decode text = some w ∧ fs'' = fs := by
  unfold load_path at h
  split at h
  · simp at h
  · rename_i text hget
    split at h
    · simp at h
    · split at h
      · simp at h
      · split at h
        · simp at h
        · rename_i u hdec
          simp only [Prod.mk.injEq, Except.ok.injEq] at h
          exact ⟨text, hget, h.1 ▸ hdec, h.2.symm⟩

/-- C1: when the target has a parent and directory creation succeeds but the
value cannot be encoded, `store_path` returns the serialization error and
the filesystem — in particular the prior bytes `B` at `p` — is completely
unchanged: no destination file is opened or truncated before encoding
succeeds. -/
theorem store_path_serialize_error_preserves_file {α : Type} (cod : Codec α)
    (env : Env) (fuel : Nat) (fs : FS) (p d : Path) (v : α) (B : String)
    (hpar : p.parent = some d) (hcd : env.createDirOk = true)
    (henc : cod.encode v = none) (hB : FS.read fs p = some B) :
    store_path cod env fuel fs p v = some (.error .SerializeTomlError, fs) ∧
      FS.read fs p = some B := by
  refine ⟨?_, hB⟩
  simp [store_path, hpar, hcd, henc]

theorem store_path_serialize_error_preserves_file_witness :
    store_path failCodec okEnv 1 [(targetPath, "old")] targetPath () =
      some (.error .SerializeTomlError, [(targetPath, "old")]) ∧
      FS.read [(targetPath, "old")] targetPath = some "old" :=
  store_path_serialize_error_preserves_file failCodec okEnv 1
    [(targetPath, "old")] targetPath ⟨true, ["app"]⟩ () "old" rfl rfl rfl rfl

/-- C2 (amended): when `p` held bytes `B`, a `store_path` call that fails at
a filesystem step after encoding succeeded (staging open, staging write,
flush, or rename) leaves `p` holding exactly `B`, and only the chosen
staging path — drawn so that no file existed there — can differ from its
prior state. -/
theorem store_path_io_failure_atomic {α : Type} (cod : Codec α) (env : Env)
    (fuel : Nat) (fs fs' : FS) (p : Path) (v : α) (e : ConfyError) (B : String)
    (hB : FS.read fs p = some B)
    (he : e = ConfyError.OpenConfigurationFileError ∨
          e = ConfyError.WriteConfigurationFileError)
    (h : store_path cod env fuel fs p v = some (.error e, fs')) :
    FS.read fs' p = some B ∧
      ∃ tmp, stagingSearch env fs p fuel 1 = some tmp ∧ FS.read fs tmp = none ∧
        ∀ q, q ≠ tmp → FS.read fs' q = FS.read fs q := by
  obtain ⟨tmp, s, hss, henc, hcases⟩ := store_path_err_fs_step he h
  have htmp : FS.read fs tmp = none := stagingSearch_read_none fuel 1 tmp hss
  have hptmp : p ≠ tmp := by
    intro hpe
    rw [hpe, htmp] at hB
    exact Option.noConfusion hB
  constructor
  · rcases hcases with h1 | h1 | h1 <;> subst h1
    · exact hB
    · rw [FS.read_set_ne _ _ hptmp]; exact hB
    · rw [FS.read_set_ne _ _ hptmp, FS.read_set_ne _ _ hptmp]; exact hB
  · refine ⟨tmp, hss, htmp, ?_⟩
    intro q hq
    rcases hcases with h1 | h1 | h1 <;> subst h1
    · rfl
    · exact FS.read_set_ne _ _ hq
    · rw [FS.read_set_ne _ _ hq, FS.read_set_ne _ _ hq]

theorem store_path_io_failure_atomic_witness :
    FS.read (FS.set [(targetPath, "old")] (candidate writeFailEnv targetPath 1) "")
        targetPath = some "old" ∧
      ∃ tmp, stagingSearch writeFailEnv [(targetPath, "old")] targetPath 1 1 = some tmp ∧
        FS.read [(targetPath, "old")] tmp = none ∧
        ∀ q, q ≠ tmp →
          FS.read (FS.set [(targetPath, "old")] (candidate writeFailEnv targetPath 1) "") q =
            FS.read [(targetPath, "old")] q :=
  store_path_io_failure_atomic demoCodec writeFailEnv 1 [(targetPath, "old")]
    (FS.set [(targetPath, "old")] (candidate writeFailEnv targetPath 1) "")
    targetPath true .WriteConfigurationFileError "old" (by decide)
    (Or.inr rfl) (by decide)

/-- C2 counterexample: `store_path` can fail at a filesystem step after
encoding and leave `p` neither byte-identical nor absent: when `p` is
absent and `p`'s own extension equals the drawn disambiguator, the staging
path is `p` itself and a failed staging write leaves a new empty file at
`p`. -/
theorem store_path_io_failure_not_atomic_cex :
    FS.read ([] : FS) cornerPath = none ∧
    store_path demoCodec writeFailEnv 1 ([] : FS) cornerPath true =
      some (.error .WriteConfigurationFileError, [(cornerPath, "")]) ∧
    FS.read [(cornerPath, "")] cornerPath = some "" := by
  refine ⟨rfl, ?_, rfl⟩
  decide

/-- C3: a successful `store_path` leaves exactly the complete encoded text
of the value at the target path. -/
theorem store_path_ok_bytes {α : Type} (cod : Codec α) (env : Env) (fuel : Nat)
    (fs fs' : FS) (p : Path) (v : α)
    (h : store_path cod env fuel fs p v = some (.ok (), fs')) :
    ∃ s, cod.encode v = some s ∧ FS.read fs' p = some s :=
  store_path_ok_read h

theorem store_path_ok_bytes_witness :
    ∃ s, demoCodec.encode true = some s ∧
      FS.read [(targetPath, "flag = true")] targetPath = some s :=
  store_path_ok_bytes demoCodec okEnv 1 [(targetPath, "old")]
    [(targetPath, "flag = true")] targetPath true (by decide)

/-- C4: when the codec decodes the encoding of `v` back to `v`, a
successful `store_path` followed by a successful `load_path` of the same
path returns `v`. -/
theorem store_then_load_roundtrip {α : Type} (cod : Codec α) (env : Env)
    (lenv : LoadEnv) (fuel : Nat) (fs fs' fs'' : FS) (p : Path) (v w : α)
    (s : String)
    (henc : cod.encode v = some s) (hdec : cod.decode s = some v)
    (hstore : store_path cod env fuel fs p v = some (.ok (), fs'))
    (hload : load_path cod lenv fs' p = (.ok w, fs'')) : w = v := by
  obtain ⟨s', henc', hread⟩ := store_path_ok_read hstore
  rw [henc] at henc'
  injection henc' with hs
  subst hs
  obtain ⟨text, hget, hdecw, -⟩ := load_path_ok_inv hload
  rw [hread] at hget
  injection hget with ht
  subst ht
  rw [hdecw] at hdec
  exact Option.some.inj hdec

theorem store_then_load_roundtrip_witness : true = true :=
  store_then_load_roundtrip demoCodec okEnv okLoadEnv 1 [(targetPath, "old")]
    [(targetPath, "flag = true")] [(targetPath, "flag = true")] targetPath
    true true "flag = true" rfl rfl (by decide) (by decide)

/-- C5 counterexample: when the clock reading succeeds but is frozen, the
loop counter does not feed the disambiguator, the candidate is the same at
every iteration, and if a file occupies it the staging loop never
terminates for any amount of fuel. -/
theorem staging_loop_frozen_clock_diverges_cex :
    ¬ ∃ fuel : Nat, (stagingSearch frozenEnv frozenFS targetPath fuel 1).isSome := by
  rintro ⟨fuel, hs⟩
  have hall : ∀ f i, stagingSearch frozenEnv frozenFS targetPath f i = none := by
    intro f
    induction f with
    | zero => intro i; rfl
    | succ f ih =>
      intro i
      have hcand : candidate frozenEnv targetPath i = candidate frozenEnv targetPath 1 := rfl
      have hread : FS.read frozenFS (candidate frozenEnv targetPath i) = some "junk" := by
        rw [hcand]
        simp [frozenFS, FS.read]
      simp only [stagingSearch, hread]
      exact ih (i + 1)
  rw [hall fuel 1] at hs
  simp at hs

/-- C5 (amended): the disambiguator combines the process id, the thread id
and the drawn value, and the candidate is redrawn until it names no
existing file; when every clock reading fails the loop counter feeds the
disambiguator, so distinct iterations draw distinct candidates and the
loop terminates within `fs.length + 1` draws.  (When the clock succeeds
but is frozen the counter does not feed the disambiguator and the loop
need not terminate.) -/
theorem staging_loop_terminates_when_clock_fails (env : Env) (fs : FS) (p : Path)
    (hc : p.components ≠ []) (hclk : ∀ k, env.clock k = none) :
    (stagingSearch env fs p (fs.length + 1) 1).isSome ∧
      ∀ i, disamb env i = mkDisamb env.pid env.tid i := by
  have hdis : ∀ i, disamb env i = mkDisamb env.pid env.tid i := by
    intro i
    simp [disamb, hclk i]
  refine ⟨?_, hdis⟩
  by_contra hns
  have hnone : stagingSearch env fs p (fs.length + 1) 1 = none := by
    cases hE : stagingSearch env fs p (fs.length + 1) 1 with
    | none => rfl
    | some t => rw [hE] at hns; simp at hns
  have hocc := stagingSearch_none_read (fs.length + 1) 1 hnone
  have hsub : ((List.range (fs.length + 1)).map (fun k => candidate env p (1 + k))) ⊆
      fs.map Prod.fst := by
    intro q hq
    simp only [List.mem_map, List.mem_range] at hq
    obtain ⟨k, hk, hcand⟩ := hq
    refine FS.mem_keys_of_read_ne_none ?_
    rw [← hcand]
    exact hocc k hk
  have hnodup : ((List.range (fs.length + 1)).map (fun k => candidate env p (1 + k))).Nodup := by
    apply List.Nodup.map _ (List.nodup_range _)
    intro a b hab
    have hd := Path.setExtension_inj hc hab
    rw [hdis, hdis] at hd
    have := (mkDisamb_inj hd).2.2
    omega
  have hle := (List.subperm_of_subset hnodup hsub).length_le
  simp only [List.length_map, List.length_range] at hle
  omega

theorem staging_loop_terminates_when_clock_fails_witness :
    (stagingSearch clockFailEnv ([] : FS) targetPath (List.length ([] : FS) + 1) 1).isSome ∧
      ∀ i, disamb clockFailEnv i = mkDisamb clockFailEnv.pid clockFailEnv.tid i :=
  staging_loop_terminates_when_clock_fails clockFailEnv [] targetPath
    (by decide) (fun _ => rfl)

/-- C6 counterexample: the universally-quantified claim fails when the
target is absent.  With `p = /app/cfg.7_ThreadId(3)_99` absent, writer
one's drawn disambiguator equals `p`'s own extension, so its staging path
is `p` itself; under a concrete interleaving both writers complete
successfully and the final contents are one writer's full encoding, yet an
intermediate state holds an observable empty file at `p` — the truncated
state the claim says no interleaving produces. -/
theorem store_path_concurrent_writers_empty_cex :
    cexW₁.tmp = cornerPath ∧
    FS.read ([] : FS) cornerPath = none ∧
    run2T cexW₁ cexW₂ cSch writerProg writerProg ([] : FS) = some cexTrace ∧
    (∃ y ∈ cexTrace, FS.read y cornerPath = some "") ∧
    (∃ x, cexTrace.getLast? = some x ∧ FS.read x cornerPath = some "b") := by
  refine ⟨rfl, rfl, ?_, ?_, ?_⟩ <;> decide

/-- C6 (amended): two concurrent same-process `store_path` calls to the
same target — same process id, distinct thread ids — draw distinct staging
paths.  Provided the target holds nonempty prior bytes (so that, by the
exists-check, both staging paths differ from the target), every schedule
interleaving the two write protocols completes both writers successfully,
ends with the target holding one writer's full encoding, and passes only
through states where the target holds the prior bytes or one of the two
encodings — never a truncated, empty, or absent target.  (When the target
is absent and a writer's drawn disambiguator coincides with the target's
own extension, the staging path is the target itself and an interleaving
passes through an observable empty file there.) -/
theorem store_path_concurrent_writers_safe
    (pid tid₁ tid₂ z₁ z₂ : Nat) (p tmp₁ tmp₂ : Path) (B s₁ s₂ : String)
    (fs : FS) (sch : List Bool)
    (hcomp : p.components ≠ []) (htid : tid₁ ≠ tid₂)
    (h₁ : tmp₁ = p.setExtension (mkDisamb pid tid₁ z₁))
    (h₂ : tmp₂ = p.setExtension (mkDisamb pid tid₂ z₂))
    (hB : FS.read fs p = some B)
    (ht₁ : FS.read fs tmp₁ = none) (ht₂ : FS.read fs tmp₂ = none)
    (hsne₁ : s₁ ≠ "") (hsne₂ : s₂ ≠ "") (hBne : B ≠ "")
    (hsch₁ : sch.count true = 4) (hsch₂ : sch.count false = 4) :
    tmp₁ ≠ tmp₂ ∧
    ∃ tr x, run2T ⟨tmp₁, p, s₁⟩ ⟨tmp₂, p, s₂⟩ sch writerProg writerProg fs = some tr ∧
      tr.getLast? = some x ∧
      (FS.read x p = some s₁ ∨ FS.read x p = some s₂) ∧
      (∀ y ∈ tr, FS.read y p = some B ∨ FS.read y p = some s₁ ∨ FS.read y p = some s₂) ∧
      (∀ y ∈ tr, FS.read y p ≠ some "" ∧ FS.read y p ≠ none) := by
  have htmp : tmp₁ ≠ tmp₂ := by
    rw [h₁, h₂]
    intro he
    exact htid (mkDisamb_inj (Path.setExtension_inj hcomp he)).2.1
  have hp₁ : tmp₁ ≠ p := by
    intro he
    rw [he] at ht₁
    rw [hB] at ht₁
    exact Option.noConfusion ht₁
  have hp₂ : tmp₂ ≠ p := by
    intro he
    rw [he] at ht₂
    rw [hB] at ht₂
    exact Option.noConfusion ht₂
  obtain ⟨tr, x, hrun, hlast, hgood, hfin⟩ :=
    run2T_spec ⟨tmp₁, p, s₁⟩ ⟨tmp₂, p, s₂⟩ p B rfl rfl htmp hp₁ hp₂ sch 0 0 fs
      (by omega) (by omega) (by simpa using hsch₁) (by simpa using hsch₂)
      trivial trivial (by simp [targetInvK, hB])
  refine ⟨htmp, tr, x, by simpa using hrun, hlast, hfin, hgood, ?_⟩
  intro y hy
  rcases hgood y hy with hg | hg | hg <;>
    exact ⟨by rw [hg]; simp [hBne, hsne₁, hsne₂], by rw [hg]; simp⟩

theorem store_path_concurrent_writers_safe_witness :
    cTmp₁ ≠ cTmp₂ ∧
    ∃ tr x, run2T ⟨cTmp₁, targetPath, "a"⟩ ⟨cTmp₂, targetPath, "b"⟩ cSch
        writerProg writerProg cFS = some tr ∧
      tr.getLast? = some x ∧
      (FS.read x targetPath = some "a" ∨ FS.read x targetPath = some "b") ∧
      (∀ y ∈ tr, FS.read y targetPath = some "old" ∨ FS.read y targetPath = some "a" ∨
        FS.read y targetPath = some "b") ∧
      (∀ y ∈ tr, FS.read y targetPath ≠ some "" ∧ FS.read y targetPath ≠ none) :=
  store_path_concurrent_writers_safe 1 2 3 5 5 targetPath cTmp₁ cTmp₂ "old" "a" "b"
    cFS cSch (by decide) (by decide) rfl rfl (by decide) (by decide) (by decide)
    (by decide) (by decide) (by decide) (by decide) (by decide)

/-- C7: storing any value to the root path `/` fails with the
bad-configuration-directory error, whose rendering is exactly
`Bad configuration directory: "/" is a root or prefix`, and the filesystem
is returned untouched. -/
theorem store_path_root_rejected {α : Type} (cod : Codec α) (env : Env)
    (fuel : Nat) (fs : FS) (v : α) :
    store_path cod env fuel fs ⟨true, []⟩ v =
      some (.error (.BadConfigDirectory "\"/\" is a root or prefix"), fs) ∧
    ConfyError.render (.BadConfigDirectory "\"/\" is a root or prefix") =
      "Bad configuration directory: \"/\" is a root or prefix" :=
  ⟨rfl, rfl⟩

/-- C8: any failure to open the file for reading — in particular when no
file exists at the path — surfaces as a `GeneralLoadError` carrying the
underlying I/O cause, which is the not-found cause when the file is
absent. -/
theorem load_path_open_failure_general_error {α : Type} (cod : Codec α)
    (env : LoadEnv) (fs : FS) (p : Path)
    (h : FS.read fs p = none ∨ ∃ k, env.openFail = some k) :
    ∃ k, load_path cod env fs p = (.error (.GeneralLoadError k), fs) ∧
      (FS.read fs p = none → k = IOErrorKind.notFound) := by
  by_cases hr : FS.read fs p = none
  · refine ⟨.notFound, ?_, fun _ => rfl⟩
    simp [load_path, hr]
  · rcases h with h | ⟨k, hk⟩
    · exact absurd h hr
    · cases hread : FS.read fs p with
      | none => exact absurd hread hr
      | some text =>
        refine ⟨k, ?_, fun hn => Option.noConfusion hn⟩
        simp [load_path, hread, hk]

theorem load_path_open_failure_general_error_witness :
    ∃ k, load_path demoCodec okLoadEnv ([] : FS) targetPath =
        (.error (.GeneralLoadError k), ([] : FS)) ∧
      (FS.read ([] : FS) targetPath = none → k = IOErrorKind.notFound) :=
  load_path_open_failure_general_error demoCodec okLoadEnv [] targetPath (Or.inl rfl)

/-- C9: evaluating `load_path` at a path where no file exists: the call
returns `GeneralLoadError` with a not-found cause rather than the
documented default value — the code contradicts its own documentation
("A new configuration file is created with default values if none
exists"). -/
theorem load_path_absent_returns_error_not_default :
    load_path demoCodec okLoadEnv ([] : FS) targetPath =
      (.error (.GeneralLoadError .notFound), ([] : FS)) := rfl

/-- C10: `load_path` performs no filesystem mutation: whatever it returns,
the filesystem it hands back is the one it was given, so every path reads
the same before and after the call. -/
theorem load_path_no_mutation {α : Type} (cod : Codec α) (env : LoadEnv)
    (fs : FS) (p q : Path) :
    (load_path cod env fs p).2 = fs ∧
      FS.read (load_path cod env fs p).2 q = FS.read fs q := by
  have h : (load_path cod env fs p).2 = fs := by
    unfold load_path
    split
    · rfl
    · split
      · rfl
      · split
        · rfl
        · split <;> rfl
  exact ⟨h, by rw [h]⟩

end Confy
